import Mathlib

/-!
Verification of the repeated note-pattern mining engine and the desktop
presentation helpers of the sheet-music repetition highlighter.

The repository ships the presentation layer (TypeScript, under
`desktop/src`) together with build scripts and documentation for the
analyzer; the analyzer's pattern-mining code itself is not part of the
source tree available here, so the engine (`Engine` namespace) is
modelled from the specification's component design (spec sections 4.1
to 4.4, 6 and 7).  The presentation-layer definitions (`ColorUtils`
and `Viewer` namespaces) are direct embeddings of
`desktop/src/utils/color.ts` and of the `patternNoteIndices` map of
`desktop/src/components/SheetMusicViewer.tsx`.
-/

namespace Engine

/-- Modelled from the spec: one sounding event of a part (spec section 3,
Token).  The analyzer source is not in the tree; the token carries the
spelled pitch, the 1-based measure index and an optional fractional beat
position.  The dense 0-based `sequenceIndex` of the spec is represented
by the position of the token in the part's list. -/
structure Token where
  pitch : String
  measureIndex : Nat
  beatPosition : Option ℚ
deriving DecidableEq, Repr

/-- Modelled from the spec: one emitted pattern of the serialized result
(spec section 6): id, owning part, token length, occurrence count,
occurrence start indices and the representative tokens of the first
occurrence. -/
structure Pattern where
  id : Nat
  partIndex : Nat
  length : Nat
  count : Nat
  positions : List Nat
  notes : List Token
deriving DecidableEq, Repr

/-- The pitch signature of the window of length `L` starting at `s`. -/
def pitchesAt (ps : List String) (s L : Nat) : List String :=
  (ps.drop s).take L

/-- Modelled from the spec: a raw repeat class of the Repeat Finder
(spec section 4.2): a content signature together with every start index
at which it occurs. -/
structure RepeatGroup where
  signature : List String
  starts : List Nat
deriving DecidableEq, Repr

/-- All start indices at which the signature `sig` occurs as a window of
length `L`. -/
def startsOf (ps : List String) (L : Nat) (sig : List String) : List Nat :=
  (List.range (ps.length + 1 - L)).filter (fun s => decide (pitchesAt ps s L = sig))

/-- The distinct window signatures of length `L` of the sequence. -/
def signaturesOfLength (ps : List String) (L : Nat) : List (List String) :=
  ((List.range (ps.length + 1 - L)).map (fun s => pitchesAt ps s L)).dedup

/-- Modelled from the spec: the Repeat Finder (spec section 4.2).  For
every length `L` from `minLength` up to half the sequence length it
buckets window start indices by content signature and retains only the
signatures occurring at least twice. -/
def findRepeats (ps : List String) (minLength : Nat) : List RepeatGroup :=
  (List.range' minLength (ps.length / 2 + 1 - minLength)).flatMap (fun L =>
    (signaturesOfLength ps L).filterMap (fun sig =>
      let starts := startsOf ps L sig
      if 2 ≤ starts.length then some ⟨sig, starts⟩ else none))

/-- Modelled from the spec: signature `A` is covered by signature `B`
(spec section 4.3, step 1) when `A` is a strict sub-window of `B` at
some offset `k` and every occurrence of `A` lies at that offset inside
an occurrence of `B`. -/
def coveredBy (A B : RepeatGroup) : Bool :=
  decide (A.signature.length < B.signature.length) &&
  (List.range (B.signature.length + 1 - A.signature.length)).any (fun k =>
    decide (pitchesAt B.signature k A.signature.length = A.signature) &&
    A.starts.all (fun s => B.starts.any (fun t => decide (s = t + k))))

/-- Modelled from the spec: consolidation step 1 (maximality): drop every
signature covered by another discovered signature. -/
def step1 (gs : List RepeatGroup) : List RepeatGroup :=
  gs.filter (fun A => !(gs.any (fun B => coveredBy A B)))

/-- Modelled from the spec: greedy left-to-right interval scheduling over
the start indices of one signature (spec section 4.3, step 2); `prev` is
the most recently kept start. -/
def greedy (L : Nat) : Option Nat → List Nat → List Nat
  | _, [] => []
  | none, s :: rest => s :: greedy L (some s) rest
  | some prev, s :: rest =>
    if prev + L ≤ s then s :: greedy L (some s) rest
    else greedy L (some prev) rest

/-- Modelled from the spec: consolidation step 2 (self-overlap
resolution): keep the greedy earliest-start maximal non-overlapping
subset of each signature's occurrences. -/
def step2 (gs : List RepeatGroup) : List RepeatGroup :=
  gs.map (fun g => ⟨g.signature, greedy g.signature.length none g.starts⟩)

/-- Modelled from the spec: consolidation step 3 (minimum occurrence
filter): drop signatures left with fewer than two occurrences. -/
def step3 (gs : List RepeatGroup) : List RepeatGroup :=
  gs.filter (fun g => decide (2 ≤ g.starts.length))

/-- Modelled from the spec: the Pattern Consolidator (spec section 4.3),
its three responsibilities applied in the order the spec gives. -/
def consolidate (gs : List RepeatGroup) : List RepeatGroup :=
  step3 (step2 (step1 gs))

/-- Start index of a group's first occurrence. -/
def firstStart (g : RepeatGroup) : Nat :=
  g.starts.headD 0

/-- Modelled from the spec: the Assembler's ordering (spec section 4.4):
length descending, ties by first occurrence start ascending. -/
def patternLE (p q : RepeatGroup) : Prop :=
  q.signature.length < p.signature.length ∨
    (p.signature.length = q.signature.length ∧ firstStart p ≤ firstStart q)

instance : DecidableRel patternLE := fun p q => by
  unfold patternLE
  infer_instance

instance : IsTotal RepeatGroup patternLE :=
  ⟨fun p q => by unfold patternLE; omega⟩

instance : IsTrans RepeatGroup patternLE :=
  ⟨fun p q r hpq hqr => by
    unfold patternLE at *
    omega⟩

/-- Modelled from the spec: sort surviving pattern classes for output. -/
def sortPatterns (gs : List RepeatGroup) : List RepeatGroup :=
  List.insertionSort patternLE gs

/-- Modelled from the spec: build one output Pattern from a surviving
class: id, part, length, occurrence count, positions and the
representative tokens taken from the first occurrence. -/
def mkPattern (tokens : List Token) (partIdx idv : Nat) (g : RepeatGroup) : Pattern :=
  { id := idv
    partIndex := partIdx
    length := g.signature.length
    count := g.starts.length
    positions := g.starts
    notes := (tokens.drop (firstStart g)).take g.signature.length }

/-- Modelled from the spec: assign ids to the sorted classes of one part
from a running counter. -/
def numberPatterns (tokens : List Token) (partIdx : Nat) : Nat → List RepeatGroup → List Pattern
  | _, [] => []
  | c, g :: rest => mkPattern tokens partIdx c g :: numberPatterns tokens partIdx (c + 1) rest

/-- Modelled from the spec: the Result Assembler for one part (spec
section 4.4). -/
def assemblePart (tokens : List Token) (partIdx startId : Nat) (gs : List RepeatGroup) : List Pattern :=
  numberPatterns tokens partIdx startId (sortPatterns gs)

/-- Modelled from the spec: the full per-part pipeline: Repeat Finder on
the pitch sequence followed by the Consolidator. -/
def partGroups (tokens : List Token) (minLength : Nat) : List RepeatGroup :=
  consolidate (findRepeats (tokens.map Token.pitch) minLength)

/-- Modelled from the spec: assemble all parts, threading the single
incrementing id counter across parts (spec sections 4.4 and 9). -/
def assembleAll : List (List Token) → Nat → Nat → Nat → List (List Pattern)
  | [], _, _, _ => []
  | part :: rest, minLength, partIdx, counter =>
    let pats := assemblePart part partIdx counter (partGroups part minLength)
    pats :: assembleAll rest minLength (partIdx + 1) (counter + pats.length)

/-- Modelled from the spec: the engine invocation (spec sections 6 and
7): a `minLength` below 2 is rejected before any part is processed;
otherwise every part is analyzed and a result list is returned. -/
def analyze (parts : List (List Token)) (minLength : Nat) : Except String (List (List Pattern)) :=
  if minLength < 2 then Except.error "minLength must be at least 2"
  else Except.ok (assembleAll parts minLength 0 0)

/-- Output ordering on emitted patterns: length descending, ties broken
by the first occurrence's start index ascending. -/
def patternOrd (p q : Pattern) : Prop :=
  q.length < p.length ∨ (p.length = q.length ∧ p.positions.headD 0 ≤ q.positions.headD 0)

/-- Convenience constructor for concrete test sequences: one token per
pitch, all in measure 1 with no beat annotation. -/
def tokensOfPitches (l : List String) : List Token :=
  l.map (fun p => ⟨p, 1, none⟩)

/-- Scenario A input (spec section 8): `[C4,D4,E4,C4,D4,E4,F4]`. -/
def scenarioA : List Token :=
  tokensOfPitches ["C4", "D4", "E4", "C4", "D4", "E4", "F4"]

/-- The single pattern the engine emits for Scenario A at `minLength` 3. -/
def scenarioAPattern : Pattern :=
  ⟨0, 0, 3, 2, [0, 3], tokensOfPitches ["C4", "D4", "E4"]⟩

/-- Scenario B input (spec section 8): `[A4,A4,A4,A4,A4]`. -/
def scenarioB : List Token :=
  tokensOfPitches ["A4", "A4", "A4", "A4", "A4"]

/-- The single pattern the engine emits for Scenario B at `minLength` 2. -/
def scenarioBPattern : Pattern :=
  ⟨0, 0, 2, 2, [0, 2], tokensOfPitches ["A4", "A4"]⟩

/-- Input on which the emitted set violates the maximality invariant:
`[C4,A4,A4,A4,C4,A4,A4]`. -/
def coverInput : List Token :=
  tokensOfPitches ["C4", "A4", "A4", "A4", "C4", "A4", "A4"]

/-- The longer pattern `(C4,A4,A4)` emitted for `coverInput` at
`minLength` 2, occurrences `[0, 4]`. -/
def coverLong : Pattern :=
  ⟨0, 0, 3, 2, [0, 4], tokensOfPitches ["C4", "A4", "A4"]⟩

/-- The shorter pattern `(A4,A4)` emitted for `coverInput` at
`minLength` 2, occurrences `[1, 5]`; each of them sits at offset 1
inside an occurrence of `coverLong`. -/
def coverShort : Pattern :=
  ⟨1, 0, 2, 2, [1, 5], tokensOfPitches ["A4", "A4"]⟩

/-- A second five-note part used to exercise the cross-part id counter. -/
def scenarioB2 : List Token :=
  tokensOfPitches ["B4", "B4", "B4", "B4", "B4"]

/-- The result of analyzing the two five-note parts with `minLength` 2:
one pattern per part, ids 0 and 1 from the shared counter. -/
def twoPartResult : List (List Pattern) :=
  [[⟨0, 0, 2, 2, [0, 2], tokensOfPitches ["A4", "A4"]⟩],
   [⟨1, 1, 2, 2, [0, 2], tokensOfPitches ["B4", "B4"]⟩]]

end Engine

namespace ColorUtils

/-- The fixed eight-entry solid palette COLORS_SOLID of
desktop/src/utils/color.ts. -/
def COLORS_SOLID : List String :=
  ["rgb(0, 129, 175)",
   "rgb(167, 127, 53)",
   "rgb(161, 77, 160)",
   "rgb(98, 139, 72)",
   "rgb(195, 60, 84)",
   "rgb(29, 51, 84)",
   "rgb(114, 169, 143)",
   "rgb(142, 127, 116)"]

/-- COLORS_ALPHA of desktop/src/utils/color.ts: every solid color with
its closing parenthesis replaced by the opacity suffix.  The source uses
the JavaScript replace of the first occurrence; every palette entry
contains exactly one closing parenthesis, so replacing all occurrences
coincides with it. -/
def COLORS_ALPHA : List String :=
  COLORS_SOLID.map (fun color => color.replace ")" ", 0.6)")

/-- getPatternColor of desktop/src/utils/color.ts: pick the solid or
alpha palette and index it by the pattern id modulo the palette size. -/
def getPatternColor (patternId : Nat) (solid : Bool) : String :=
  let colors := if solid then COLORS_SOLID else COLORS_ALPHA
  colors.getD (patternId % colors.length) ""

end ColorUtils

namespace Viewer

/-- The NoteLocator interface of
desktop/src/components/SheetMusicViewer.tsx. -/
structure NoteLocator where
  index : Nat
  measure : Nat
  beat : Option ℚ
  pitch : String
deriving DecidableEq, Repr

/-- The Pattern interface of
desktop/src/components/SheetMusicViewer.tsx. -/
structure Pattern where
  id : Nat
  partIndex : Nat
  length : Nat
  count : Nat
  positions : List Nat
  notes : List NoteLocator
deriving DecidableEq, Repr

/-- The record stored per note key by patternNoteIndices
(SheetMusicViewer.tsx, lines 125-158). -/
structure PatternInfo where
  patternId : Nat
  occurrenceIndex : Nat
  positionInPattern : Nat
  color : String
  pitch : String
deriving DecidableEq, Repr

/-- The composite map key of SheetMusicViewer.tsx: the template string
combining part index and note index with a dash, both rendered in
decimal. -/
def mkKey (partIndex n : Nat) : String :=
  Nat.repr partIndex ++ "-" ++ Nat.repr n

/-- The color chosen for a pattern in patternNoteIndices:
patternColors.get(pattern.id) when present and truthy, otherwise
getPatternColor(pattern.id, true). -/
def colorFor (patternColors : Nat → Option String) (p : Pattern) : String :=
  match patternColors p.id with
  | some c => if c = "" then ColorUtils.getPatternColor p.id true else c
  | none => ColorUtils.getPatternColor p.id true

/-- The pitch stored for position i of a pattern:
pattern.notes[i]?.pitch with the empty string as fallback. -/
def pitchAt (p : Pattern) (i : Nat) : String :=
  ((p.notes.get? i).map NoteLocator.pitch).getD ""

/-- The sequence of map writes performed by the inner loop of
patternNoteIndices for one occurrence starting at s with occurrence
index occ: one write per position i in the pattern. -/
def occWrites (pc : Nat → Option String) (p : Pattern) (s occ : Nat) :
    List (String × PatternInfo) :=
  (List.range p.length).map (fun i =>
    (mkKey p.partIndex (s + i), ⟨p.id, occ, i, colorFor pc p, pitchAt p i⟩))

/-- The writes performed while traversing the remaining occurrence
starts, occ being the index of the first of them (the forEach callback
receives the element together with its index). -/
def patternWritesAux (pc : Nat → Option String) (p : Pattern) :
    List Nat → Nat → List (String × PatternInfo)
  | [], _ => []
  | s :: rest, occ => occWrites pc p s occ ++ patternWritesAux pc p rest (occ + 1)

/-- All map writes performed by patternNoteIndices for one pattern, in
execution order. -/
def patternWrites (pc : Nat → Option String) (p : Pattern) :
    List (String × PatternInfo) :=
  patternWritesAux pc p p.positions 0

/-- Replay a sequence of writes on a key-to-value map, later writes
overwriting earlier ones, as Map.set does. -/
def applyWrites (m : String → Option PatternInfo)
    (ws : List (String × PatternInfo)) : String → Option PatternInfo :=
  ws.foldl (fun m kv => fun key => if key = kv.1 then some kv.2 else m key) m

/-- The patternNoteIndices map of SheetMusicViewer.tsx (lines 125-158):
starting from the empty map, every pattern of the list writes an entry
for every token of every one of its occurrences. -/
def patternNoteIndices (pc : Nat → Option String) (patterns : List Pattern) :
    String → Option PatternInfo :=
  patterns.foldl (fun m p => applyWrites m (patternWrites pc p)) (fun _ => none)

/-- The pattern writes the given key: some occurrence start s and some
position i inside the pattern produce that key. -/
def coversB (p : Pattern) (key : String) : Bool :=
  p.positions.any (fun s =>
    (List.range p.length).any (fun i => decide (mkKey p.partIndex (s + i) = key)))

/-- Decimal value of a digit character. -/
def decDigit (c : Char) : Nat := c.toNat - 48

/-- Decimal value of a digit string. -/
def decodeDigits (l : List Char) : Nat :=
  l.foldl (fun acc c => 10 * acc + decDigit c) 0

end Viewer


namespace Engine

theorem pitchesAt_length {ps : List String} {s L : Nat} (h : s + L ≤ ps.length) :
    (pitchesAt ps s L).length = L := by
  simp [pitchesAt]
  omega

theorem mem_startsOf {ps : List String} {L : Nat} {sig : List String} {s : Nat} :
    s ∈ startsOf ps L sig ↔ s < ps.length + 1 - L ∧ pitchesAt ps s L = sig := by
  simp [startsOf, List.mem_filter, List.mem_range]

theorem startsOf_pairwise (ps : List String) (L : Nat) (sig : List String) :
    (startsOf ps L sig).Pairwise (· < ·) :=
  (List.pairwise_lt_range _).filter _

theorem mem_signaturesOfLength {ps : List String} {L : Nat} {sig : List String}
    (h : sig ∈ signaturesOfLength ps L) :
    ∃ s, s < ps.length + 1 - L ∧ pitchesAt ps s L = sig := by
  simp only [signaturesOfLength, List.mem_dedup, List.mem_map, List.mem_range] at h
  exact h

theorem sig_length_of_mem {ps : List String} {L : Nat} {sig : List String}
    (h : sig ∈ signaturesOfLength ps L) (hL : L ≤ ps.length) : sig.length = L := by
  obtain ⟨s, hs, hsig⟩ := mem_signaturesOfLength h
  subst hsig
  exact pitchesAt_length (by omega)

theorem mem_findRepeats {ps : List String} {m : Nat} {g : RepeatGroup}
    (hg : g ∈ findRepeats ps m) :
    m ≤ g.signature.length ∧ g.signature.length ≤ ps.length / 2 ∧
      g.starts = startsOf ps g.signature.length g.signature ∧ 2 ≤ g.starts.length := by
  simp only [findRepeats, List.mem_flatMap, List.mem_filterMap, List.mem_range'_1] at hg
  obtain ⟨L, ⟨hmL, hLlt⟩, sig, hsig, hif⟩ := hg
  have hL2 : L ≤ ps.length / 2 := by omega
  have hLn : L ≤ ps.length := le_trans hL2 (Nat.div_le_self _ _)
  have hlen : sig.length = L := sig_length_of_mem hsig hLn
  by_cases hc : 2 ≤ (startsOf ps L sig).length
  · simp only [hc, if_pos] at hif
    cases hif
    simp_all
  · simp only [hc, if_neg, if_false] at hif
    exact absurd hif (by simp)

theorem greedy_mem {L : Nat} : ∀ {l : List Nat} {o : Option Nat} {x : Nat},
    x ∈ greedy L o l → x ∈ l := by
  intro l
  induction l with
  | nil => intro o x h; simp [greedy] at h
  | cons s rest ih =>
    intro o x h
    cases o with
    | none =>
      simp only [greedy, List.mem_cons] at h ⊢
      rcases h with h | h
      · exact Or.inl h
      · exact Or.inr (ih h)
    | some prev =>
      simp only [greedy] at h
      split at h
      · simp only [List.mem_cons] at h ⊢
        rcases h with h | h
        · exact Or.inl h
        · exact Or.inr (ih h)
      · exact List.mem_cons_of_mem _ (ih h)

theorem greedy_some_ge {L : Nat} : ∀ {l : List Nat} {prev x : Nat},
    x ∈ greedy L (some prev) l → prev + L ≤ x := by
  intro l
  induction l with
  | nil => intro prev x h; simp [greedy] at h
  | cons s rest ih =>
    intro prev x h
    simp only [greedy] at h
    split at h
    · rename_i hle
      rcases List.mem_cons.mp h with h | h
      · omega
      · have := ih h
        omega
    · exact ih h

theorem greedy_pairwise {L : Nat} : ∀ (l : List Nat) (o : Option Nat),
    (greedy L o l).Pairwise (fun a b => a + L ≤ b) := by
  intro l
  induction l with
  | nil => intro o; simp [greedy]
  | cons s rest ih =>
    intro o
    cases o with
    | none =>
      simp only [greedy]
      exact List.pairwise_cons.mpr ⟨fun y hy => greedy_some_ge hy, ih _⟩
    | some prev =>
      simp only [greedy]
      split
      · exact List.pairwise_cons.mpr ⟨fun y hy => greedy_some_ge hy, ih _⟩
      · exact ih _

theorem mem_consolidate {gs : List RepeatGroup} {g : RepeatGroup}
    (h : g ∈ consolidate gs) :
    ∃ g₁ ∈ gs, g.signature = g₁.signature ∧
      g.starts = greedy g₁.signature.length none g₁.starts ∧
      (∀ B ∈ gs, coveredBy g₁ B = false) ∧ 2 ≤ g.starts.length := by
  simp only [consolidate, step3, step2, step1, List.mem_filter, List.mem_map,
    decide_eq_true_eq] at h
  obtain ⟨⟨g₁, ⟨hg₁gs, hnc⟩, hmk⟩, hcount⟩ := h
  refine ⟨g₁, hg₁gs, ?_, ?_, ?_, hcount⟩
  · rw [← hmk]
  · rw [← hmk]
  · intro B hB
    simp only [Bool.not_eq_true', List.any_eq_false] at hnc
    exact Bool.eq_false_iff.mpr (hnc B hB)

end Engine

namespace Engine

theorem mem_sortPatterns {gs : List RepeatGroup} {g : RepeatGroup} :
    g ∈ sortPatterns gs ↔ g ∈ gs :=
  (List.perm_insertionSort patternLE gs).mem_iff

theorem sorted_sortPatterns (gs : List RepeatGroup) :
    (sortPatterns gs).Pairwise patternLE :=
  List.sorted_insertionSort patternLE gs

theorem mem_numberPatterns {tokens : List Token} {partIdx : Nat} :
    ∀ {c : Nat} {gs : List RepeatGroup} {pat : Pattern},
      pat ∈ numberPatterns tokens partIdx c gs →
      ∃ g ∈ gs, ∃ j, pat = mkPattern tokens partIdx j g := by
  intro c gs
  induction gs generalizing c with
  | nil => intro pat h; simp [numberPatterns] at h
  | cons g rest ih =>
    intro pat h
    rcases List.mem_cons.mp h with h | h
    · exact ⟨g, List.mem_cons_self _ _, c, h⟩
    · obtain ⟨g', hg', j, hj⟩ := ih h
      exact ⟨g', List.mem_cons_of_mem _ hg', j, hj⟩

theorem numberPatterns_length {tokens : List Token} {partIdx : Nat} :
    ∀ (c : Nat) (gs : List RepeatGroup),
      (numberPatterns tokens partIdx c gs).length = gs.length := by
  intro c gs
  induction gs generalizing c with
  | nil => simp [numberPatterns]
  | cons g rest ih => simp [numberPatterns, ih]

theorem ids_numberPatterns {tokens : List Token} {partIdx : Nat} :
    ∀ (c : Nat) (gs : List RepeatGroup),
      (numberPatterns tokens partIdx c gs).map Pattern.id = List.range' c gs.length := by
  intro c gs
  induction gs generalizing c with
  | nil => simp [numberPatterns]
  | cons g rest ih =>
    simp only [numberPatterns, List.map_cons, List.length_cons, List.range'_succ, ih]
    rfl

theorem pairwise_numberPatterns {tokens : List Token} {partIdx : Nat} :
    ∀ {c : Nat} {gs : List RepeatGroup}, gs.Pairwise patternLE →
      (numberPatterns tokens partIdx c gs).Pairwise patternOrd := by
  intro c gs
  induction gs generalizing c with
  | nil => intro _; simp [numberPatterns]
  | cons g rest ih =>
    intro h
    rcases List.pairwise_cons.mp h with ⟨hhead, htail⟩
    refine List.pairwise_cons.mpr ⟨?_, ih htail⟩
    intro pat hpat
    obtain ⟨g', hg', j, hj⟩ := mem_numberPatterns hpat
    subst hj
    have := hhead g' hg'
    simp only [patternOrd, mkPattern, patternLE, firstStart] at this ⊢
    exact this

theorem assembleAll_length :
    ∀ (parts : List (List Token)) (m pi c : Nat),
      (assembleAll parts m pi c).length = parts.length := by
  intro parts
  induction parts with
  | nil => intro m pi c; simp [assembleAll]
  | cons part rest ih =>
    intro m pi c
    simp [assembleAll, ih]

theorem get?_assembleAll :
    ∀ (parts : List (List Token)) (m pi c i : Nat) (pl : List Pattern),
      (assembleAll parts m pi c).get? i = some pl →
      ∃ part c', parts.get? i = some part ∧
        pl = assemblePart part (pi + i) c' (partGroups part m) := by
  intro parts
  induction parts with
  | nil => intro m pi c i pl h; simp [assembleAll] at h
  | cons part rest ih =>
    intro m pi c i pl h
    cases i with
    | zero =>
      simp only [assembleAll, List.get?_cons_zero, Option.some_inj] at h
      exact ⟨part, c, rfl, by rw [Nat.add_zero, ← h]⟩
    | succ i' =>
      simp only [assembleAll, List.get?_cons_succ] at h
      obtain ⟨part', c', hpart, hpl⟩ := ih m (pi + 1) _ i' pl h
      refine ⟨part', c', hpart, ?_⟩
      rw [hpl]
      congr 1
      omega

theorem ids_assembleAll :
    ∀ (parts : List (List Token)) (m pi c : Nat),
      ∃ n, (assembleAll parts m pi c).flatMap (fun pl => pl.map Pattern.id) =
        List.range' c n := by
  intro parts
  induction parts with
  | nil => intro m pi c; exact ⟨0, by simp [assembleAll]⟩
  | cons part rest ih =>
    intro m pi c
    obtain ⟨n, hn⟩ := ih m (pi + 1)
      (c + (assemblePart part pi c (partGroups part m)).length)
    refine ⟨n + (assemblePart part pi c (partGroups part m)).length, ?_⟩
    have hlen : (assemblePart part pi c (partGroups part m)).map Pattern.id =
        List.range' c (assemblePart part pi c (partGroups part m)).length := by
      simp only [assemblePart, ids_numberPatterns, numberPatterns_length]
    simp only [assembleAll, List.flatMap_cons, hn, hlen, List.range'_append_1]

theorem pattern_provenance {parts : List (List Token)} {m : Nat}
    {res : List (List Pattern)} {i : Nat} {pl : List Pattern} {part : List Token}
    {pat : Pattern} (hok : analyze parts m = Except.ok res)
    (hi : res.get? i = some pl) (hpart : parts.get? i = some part) (hp : pat ∈ pl) :
    ∃ g ∈ consolidate (findRepeats (part.map Token.pitch) m), ∃ j,
      pat = mkPattern part i j g := by
  have hres : res = assembleAll parts m 0 0 := by
    simp only [analyze] at hok
    split at hok
    · cases hok
    · cases hok; rfl
  subst hres
  obtain ⟨part', c', hpart', hpl⟩ := get?_assembleAll parts m 0 0 i pl hi
  rw [hpart] at hpart'
  cases hpart'
  subst hpl
  obtain ⟨g, hg, j, hj⟩ := mem_numberPatterns hp
  exact ⟨g, mem_sortPatterns.mp hg, j, by simpa using hj⟩

end Engine

namespace Engine

theorem headD_mem_of_two_le {l : List Nat} (h : 2 ≤ l.length) : l.headD 0 ∈ l := by
  cases l with
  | nil => simp at h
  | cons a t => simp [List.headD]

theorem pairwise_mem_cases {α : Type} {P : α → α → Prop} :
    ∀ {l : List α}, l.Pairwise P → ∀ {a b : α}, a ∈ l → b ∈ l →
      a = b ∨ P a b ∨ P b a := by
  intro l hl
  induction hl with
  | nil => intro a b ha _; simp at ha
  | cons hhead _ ih =>
    intro a b ha hb
    rcases List.mem_cons.mp ha with rfl | ha'
    · rcases List.mem_cons.mp hb with rfl | hb'
      · exact Or.inl rfl
      · exact Or.inr (Or.inl (hhead b hb'))
    · rcases List.mem_cons.mp hb with rfl | hb'
      · exact Or.inr (Or.inr (hhead a ha'))
      · exact ih ha' hb'

/-- C1: every pattern the engine emits has length at least `minLength`,
has at least two occurrences (its reported count equalling the number of
occurrences), and every occurrence carries exactly the pitch sequence of
the pattern's representative notes (the match key); a candidate with a
single occurrence is never emitted. -/
theorem emitted_pattern_invariants {parts : List (List Token)} {m : Nat}
    {res : List (List Pattern)} {i : Nat} {pl : List Pattern} {part : List Token}
    {pat : Pattern} (hok : analyze parts m = Except.ok res)
    (hi : res.get? i = some pl) (hpart : parts.get? i = some part) (hp : pat ∈ pl) :
    m ≤ pat.length ∧ pat.count = pat.positions.length ∧ 2 ≤ pat.positions.length ∧
      ∀ s ∈ pat.positions,
        pitchesAt (part.map Token.pitch) s pat.length = pat.notes.map Token.pitch := by
  obtain ⟨g, hg, j, rfl⟩ := pattern_provenance hok hi hpart hp
  obtain ⟨g₁, hg₁, hsig, hstarts, _, hcount⟩ := mem_consolidate hg
  obtain ⟨hm, _, hstartsOf, _⟩ := mem_findRepeats hg₁
  have hLen : (mkPattern part i j g).length = g₁.signature.length := by
    simp [mkPattern, hsig]
  have hfirst : firstStart g ∈ g.starts := by
    simpa [firstStart] using headD_mem_of_two_le hcount
  have hsub : ∀ s ∈ g.starts, s ∈ g₁.starts := by
    intro s hs
    rw [hstarts] at hs
    exact greedy_mem hs
  have hwin : ∀ s ∈ g.starts,
      pitchesAt (part.map Token.pitch) s g₁.signature.length = g₁.signature := by
    intro s hs
    have := hsub s hs
    rw [hstartsOf] at this
    exact (mem_startsOf.mp this).2
  have hnotes : (mkPattern part i j g).notes.map Token.pitch = g₁.signature := by
    have hw := hwin _ hfirst
    simp only [pitchesAt] at hw
    simp only [mkPattern, List.map_take, List.map_drop, hsig]
    exact hw
  refine ⟨?_, ?_, ?_, ?_⟩
  · rw [hLen]; exact hm
  · simp [mkPattern]
  · simpa [mkPattern] using hcount
  · intro s hs
    have hs' : s ∈ g.starts := by simpa [mkPattern] using hs
    rw [hLen, hnotes]
    exact hwin s hs'

/-- C2: occurrences of one emitted pattern never overlap: for two
occurrence starts `s1 < s2` of a pattern of length `L`, `s1 + L ≤ s2`
(greedy left-to-right interval scheduling guarantees it). -/
theorem emitted_occurrences_nonoverlapping {parts : List (List Token)} {m : Nat}
    {res : List (List Pattern)} {i : Nat} {pl : List Pattern} {part : List Token}
    {pat : Pattern} {s1 s2 : Nat} (hok : analyze parts m = Except.ok res)
    (hi : res.get? i = some pl) (hpart : parts.get? i = some part) (hp : pat ∈ pl)
    (h1 : s1 ∈ pat.positions) (h2 : s2 ∈ pat.positions) (hlt : s1 < s2) :
    s1 + pat.length ≤ s2 := by
  obtain ⟨g, hg, j, rfl⟩ := pattern_provenance hok hi hpart hp
  obtain ⟨g₁, hg₁, hsig, hstarts, _, hcount⟩ := mem_consolidate hg
  have hpos : (mkPattern part i j g).positions = g.starts := by simp [mkPattern]
  have hLen : (mkPattern part i j g).length = g₁.signature.length := by
    simp [mkPattern, hsig]
  rw [hpos] at h1 h2
  rw [hLen]
  have hpw : g.starts.Pairwise (fun a b => a + g₁.signature.length ≤ b) := by
    rw [hstarts]
    exact greedy_pairwise _ _
  rcases pairwise_mem_cases hpw h1 h2 with h | h | h
  · omega
  · exact h
  · omega

end Engine

namespace Engine

theorem emitted_pattern_invariants_witness :
    3 ≤ scenarioAPattern.length ∧
      scenarioAPattern.count = scenarioAPattern.positions.length ∧
      2 ≤ scenarioAPattern.positions.length ∧
      ∀ s ∈ scenarioAPattern.positions,
        pitchesAt (scenarioA.map Token.pitch) s scenarioAPattern.length =
          scenarioAPattern.notes.map Token.pitch :=
  @emitted_pattern_invariants [scenarioA] 3 [[scenarioAPattern]] 0 [scenarioAPattern]
    scenarioA scenarioAPattern (by rfl) (by rfl) (by rfl) (by simp)

theorem emitted_occurrences_nonoverlapping_witness :
    0 + scenarioAPattern.length ≤ 3 :=
  @emitted_occurrences_nonoverlapping [scenarioA] 3 [[scenarioAPattern]] 0 [scenarioAPattern]
    scenarioA scenarioAPattern 0 3 (by rfl) (by rfl) (by rfl) (by simp)
    (by decide) (by decide) (by decide)

/-- C3 is false as stated on the spec-modelled pipeline: on the input
`[C4,A4,A4,A4,C4,A4,A4]` with `minLength` 2 the engine emits both
`(C4,A4,A4)` at `[0,4]` and `(A4,A4)` at `[1,5]`, and every surviving
occurrence of the shorter pattern lies at offset 1 inside an occurrence
of the longer one, with the shorter signature a strict inner window of
the longer: an emitted pattern is fully covered by another emitted
pattern at every one of its occurrence sites. -/
theorem maximality_counterexample :
    analyze [coverInput] 2 = Except.ok [[coverLong, coverShort]] ∧
      coverShort.length < coverLong.length ∧
      pitchesAt (coverLong.notes.map Token.pitch) 1 coverShort.length =
        coverShort.notes.map Token.pitch ∧
      (∀ s ∈ coverShort.positions, ∃ t ∈ coverLong.positions, s = t + 1) := by
  refine ⟨by rfl, by decide, by rfl, by decide⟩

/-- C3 (amended): maximality is enforced against the raw occurrence
lists produced by the Repeat Finder, before self-overlap pruning: for
every emitted pattern, the repeat group formed by its pitch signature
and the signature's full start list is covered by no discovered repeat
group.  After self-overlap pruning the surviving occurrences of an
emitted pattern may all lie inside occurrences of another emitted
pattern. -/
theorem emitted_not_covered_on_raw_occurrences {parts : List (List Token)} {m : Nat}
    {res : List (List Pattern)} {i : Nat} {pl : List Pattern} {part : List Token}
    {pat : Pattern} (hok : analyze parts m = Except.ok res)
    (hi : res.get? i = some pl) (hpart : parts.get? i = some part) (hp : pat ∈ pl) :
    ∀ B ∈ findRepeats (part.map Token.pitch) m,
      coveredBy ⟨pat.notes.map Token.pitch,
        startsOf (part.map Token.pitch) pat.length (pat.notes.map Token.pitch)⟩ B
        = false := by
  obtain ⟨g, hg, j, rfl⟩ := pattern_provenance hok hi hpart hp
  obtain ⟨g₁, hg₁, hsig, hstarts, hnc, hcount⟩ := mem_consolidate hg
  obtain ⟨hm, _, hstartsOf, _⟩ := mem_findRepeats hg₁
  have hfirst : firstStart g ∈ g.starts := by
    simpa [firstStart] using headD_mem_of_two_le hcount
  have hsub : ∀ s ∈ g.starts, s ∈ g₁.starts := by
    intro s hs
    rw [hstarts] at hs
    exact greedy_mem hs
  have hwin : ∀ s ∈ g.starts,
      pitchesAt (part.map Token.pitch) s g₁.signature.length = g₁.signature := by
    intro s hs
    have := hsub s hs
    rw [hstartsOf] at this
    exact (mem_startsOf.mp this).2
  have hnotes : (mkPattern part i j g).notes.map Token.pitch = g₁.signature := by
    have hw := hwin _ hfirst
    simp only [pitchesAt] at hw
    simp only [mkPattern, List.map_take, List.map_drop, hsig]
    exact hw
  have hLen : (mkPattern part i j g).length = g₁.signature.length := by
    simp [mkPattern, hsig]
  intro B hB
  have hgrp : (⟨(mkPattern part i j g).notes.map Token.pitch,
      startsOf (part.map Token.pitch) (mkPattern part i j g).length
        ((mkPattern part i j g).notes.map Token.pitch)⟩ : RepeatGroup) = g₁ := by
    cases g₁ with
    | mk sig st =>
      simp only [RepeatGroup.mk.injEq]
      simp only at hnotes hLen hstartsOf
      exact ⟨hnotes, by rw [hnotes, hLen, ← hstartsOf]⟩
  rw [hgrp]
  exact hnc B hB

theorem emitted_not_covered_on_raw_occurrences_witness :
    (findRepeats (coverInput.map Token.pitch) 2).all
      (fun B => !(coveredBy ⟨coverShort.notes.map Token.pitch,
        startsOf (coverInput.map Token.pitch) coverShort.length
          (coverShort.notes.map Token.pitch)⟩ B)) = true := by
  have h := @emitted_not_covered_on_raw_occurrences [coverInput] 2
    [[coverLong, coverShort]] 0 [coverLong, coverShort] coverInput coverShort
    (by rfl) (by rfl) (by rfl) (by simp)
  rw [List.all_eq_true]
  intro B hB
  rw [h B hB]
  rfl

/-- C4: within every part of an analysis result the patterns are sorted
by length descending with ties broken by the first occurrence's start
index ascending, and the ids across the whole result, read in order,
form `0, 1, 2, ...` from a single incrementing counter, hence are
non-negative and unique across the result. -/
theorem patterns_sorted_and_ids_sequential {parts : List (List Token)} {m : Nat}
    {res : List (List Pattern)} (hok : analyze parts m = Except.ok res) :
    (∀ pl ∈ res, pl.Pairwise patternOrd) ∧
      res.flatMap (fun pl => pl.map Pattern.id) =
        List.range (res.flatMap (fun pl => pl.map Pattern.id)).length := by
  have hres : res = assembleAll parts m 0 0 := by
    simp only [analyze] at hok
    split at hok
    · cases hok
    · cases hok; rfl
  constructor
  · intro pl hpl
    obtain ⟨n, hn⟩ := List.get?_of_mem hpl
    rw [hres] at hn
    obtain ⟨part, c', _, hpldef⟩ := get?_assembleAll parts m 0 0 n pl hn
    rw [hpldef]
    exact pairwise_numberPatterns (sorted_sortPatterns _)
  · obtain ⟨n, hn⟩ := ids_assembleAll parts m 0 0
    rw [hres, hn, List.length_range']
    exact (List.range_eq_range' n).symm

theorem patterns_sorted_and_ids_sequential_witness :
    (∀ pl ∈ twoPartResult, pl.Pairwise patternOrd) ∧
      twoPartResult.flatMap (fun pl => pl.map Pattern.id) =
        List.range (twoPartResult.flatMap (fun pl => pl.map Pattern.id)).length :=
  @patterns_sorted_and_ids_sequential [scenarioB, scenarioB2] 2 twoPartResult (by rfl)

/-- C5: on `[A4,A4,A4,A4,A4]` with `minLength` 2 the engine emits one
pattern whose occurrences are the greedy earliest-start maximal
non-overlapping subset `[0, 2]` (the trailing single note is discarded),
never the overlapping `[0, 1, 2, 3]`. -/
theorem scenario_b_greedy_occurrences :
    analyze [scenarioB] 2 = Except.ok [[scenarioBPattern]] ∧
      scenarioBPattern.positions = [0, 2] ∧ scenarioBPattern.positions ≠ [0, 1, 2, 3] := by
  refine ⟨by rfl, by rfl, by decide⟩

/-- C6: on `[C4,D4,E4,C4,D4,E4,F4]` with `minLength` 3 the engine emits
exactly one pattern, of length 3, with occurrences `[0, 3]` and
representative pitches `[C4, D4, E4]`. -/
theorem scenario_a_single_pattern :
    analyze [scenarioA] 3 = Except.ok [[scenarioAPattern]] ∧
      scenarioAPattern.length = 3 ∧ scenarioAPattern.positions = [0, 3] ∧
      scenarioAPattern.notes.map Token.pitch = ["C4", "D4", "E4"] := by
  refine ⟨by rfl, by rfl, by rfl, by rfl⟩

theorem findRepeats_eq_nil {ps : List String} {m : Nat} (h : ps.length / 2 < m) :
    findRepeats ps m = [] := by
  have hz : ps.length / 2 + 1 - m = 0 := by omega
  simp [findRepeats, hz]

/-- C7: a part with at most one sounding event, or shorter than
`minLength`, yields an empty pattern list for that part while the whole
run still succeeds (for a valid `minLength`). -/
theorem short_part_empty_result {parts : List (List Token)} {m i : Nat}
    {part : List Token} (hm : 2 ≤ m) (hpart : parts.get? i = some part)
    (hshort : part.length ≤ 1 ∨ part.length < m) :
    ∃ res, analyze parts m = Except.ok res ∧ res.get? i = some [] := by
  have hok : analyze parts m = Except.ok (assembleAll parts m 0 0) := by
    unfold analyze
    rw [if_neg (by omega)]
  refine ⟨_, hok, ?_⟩
  obtain ⟨hilen, -⟩ := List.get?_eq_some.mp hpart
  have hlen2 : i < (assembleAll parts m 0 0).length := by
    rw [assembleAll_length]; exact hilen
  obtain ⟨pl, hpl⟩ : ∃ pl, (assembleAll parts m 0 0).get? i = some pl :=
    ⟨_, List.get?_eq_get hlen2⟩
  obtain ⟨part', c', hpart', hpldef⟩ := get?_assembleAll parts m 0 0 i pl hpl
  rw [hpart] at hpart'
  cases hpart'
  have hhalf : (part.map Token.pitch).length / 2 < m := by
    rw [List.length_map]; omega
  have hnil : partGroups part m = [] := by
    simp [partGroups, findRepeats_eq_nil hhalf, consolidate, step1, step2, step3]
  rw [hpl, hpldef, hnil]
  rfl

theorem short_part_empty_result_witness :
    ∃ res, analyze [tokensOfPitches ["C4"]] 2 = Except.ok res ∧ res.get? 0 = some [] :=
  @short_part_empty_result [tokensOfPitches ["C4"]] 2 0 (tokensOfPitches ["C4"])
    (by decide) (by rfl) (Or.inl (by decide))

/-- C8: the engine rejects the invocation with an error exactly when
`minLength < 2`, producing no result at all; for `minLength ≥ 2` it
always returns an ok result. -/
theorem minlength_validation (parts : List (List Token)) (m : Nat) :
    (analyze parts m = Except.error "minLength must be at least 2" ↔ m < 2) ∧
      ((∃ res, analyze parts m = Except.ok res) ↔ 2 ≤ m) := by
  by_cases hm : m < 2
  · constructor
    · simp [analyze, hm]
    · constructor
      · intro ⟨res, hres⟩
        simp [analyze, hm] at hres
      · intro h; omega
  · constructor
    · constructor
      · intro h
        simp [analyze, hm] at h
      · intro h; omega
    · constructor
      · intro _; omega
      · intro _
        exact ⟨assembleAll parts m 0 0, by simp [analyze, hm]⟩

end Engine

namespace Viewer

theorem digitChar_isDigit {n : Nat} (h : n < 10) :
    (Nat.digitChar n).isDigit = true := by
  interval_cases n <;> decide

theorem decDigit_digitChar {n : Nat} (h : n < 10) :
    decDigit (Nat.digitChar n) = n := by
  interval_cases n <;> decide

theorem toDigitsCore_digits :
    ∀ (fuel n : Nat) (ds : List Char), (∀ c ∈ ds, c.isDigit = true) →
      ∀ c ∈ Nat.toDigitsCore 10 fuel n ds, c.isDigit = true := by
  intro fuel
  induction fuel with
  | zero =>
    intro n ds hds c hc
    simp only [Nat.toDigitsCore] at hc
    exact hds c hc
  | succ f ih =>
    intro n ds hds c hc
    have hd : (Nat.digitChar (n % 10)).isDigit = true :=
      digitChar_isDigit (Nat.mod_lt _ (by norm_num))
    have hds' : ∀ x ∈ Nat.digitChar (n % 10) :: ds, x.isDigit = true := by
      intro x hx
      rcases List.mem_cons.mp hx with rfl | hx
      · exact hd
      · exact hds x hx
    simp only [Nat.toDigitsCore] at hc
    split at hc
    · rcases List.mem_cons.mp hc with rfl | hc
      · exact hd
      · exact hds c hc
    · exact ih _ _ hds' c hc

theorem repr_isDigit (n : Nat) : ∀ c ∈ (Nat.repr n).data, c.isDigit = true := by
  intro c hc
  have h0 : (Nat.repr n).data = Nat.toDigitsCore 10 (n + 1) n [] := rfl
  rw [h0] at hc
  exact toDigitsCore_digits (n + 1) n [] (by intro x hx; simp at hx) c hc

theorem dash_not_mem_repr (n : Nat) : '-' ∉ (Nat.repr n).data := by
  intro h
  have := repr_isDigit n '-' h
  exact absurd this (by decide)

theorem foldl_decode_acc :
    ∀ (l : List Char) (acc : Nat),
      l.foldl (fun acc c => 10 * acc + decDigit c) acc =
        acc * 10 ^ l.length + decodeDigits l := by
  intro l
  induction l with
  | nil => intro acc; simp [decodeDigits]
  | cons c t ih =>
    intro acc
    simp only [List.foldl_cons, decodeDigits] at ih ⊢
    rw [ih (10 * acc + decDigit c), ih (10 * 0 + decDigit c), List.length_cons,
      pow_succ]
    ring

theorem decode_cons (c : Char) (l : List Char) :
    decodeDigits (c :: l) = decDigit c * 10 ^ l.length + decodeDigits l := by
  simp only [decodeDigits, List.foldl_cons]
  rw [foldl_decode_acc, Nat.mul_zero, Nat.zero_add]
  rfl

theorem decode_toDigitsCore :
    ∀ (fuel n : Nat) (ds : List Char), n < fuel →
      decodeDigits (Nat.toDigitsCore 10 fuel n ds) =
        n * 10 ^ ds.length + decodeDigits ds := by
  intro fuel
  induction fuel with
  | zero => intro n ds h; omega
  | succ f ih =>
    intro n ds h
    have hdec : decDigit (Nat.digitChar (n % 10)) = n % 10 :=
      decDigit_digitChar (Nat.mod_lt _ (by norm_num))
    simp only [Nat.toDigitsCore]
    split
    · rename_i h0
      rw [decode_cons, hdec]
      have hn : n % 10 = n := by omega
      rw [hn]
    · rename_i h0
      have hlt : n / 10 < f := by omega
      rw [ih (n / 10) (Nat.digitChar (n % 10) :: ds) hlt, decode_cons, hdec,
        List.length_cons, pow_succ]
      have hP : n / 10 * (10 ^ ds.length * 10) + n % 10 * 10 ^ ds.length =
          n * 10 ^ ds.length := by
        calc n / 10 * (10 ^ ds.length * 10) + n % 10 * 10 ^ ds.length
            = (n / 10 * 10 + n % 10) * 10 ^ ds.length := by ring
          _ = n * 10 ^ ds.length := by rw [Nat.div_add_mod']
      omega

theorem decode_repr (n : Nat) : decodeDigits ((Nat.repr n).data) = n := by
  have h0 : (Nat.repr n).data = Nat.toDigitsCore 10 (n + 1) n [] := rfl
  rw [h0, decode_toDigitsCore (n + 1) n [] (by omega)]
  simp [decodeDigits]

theorem repr_data_injective {a b : Nat}
    (h : (Nat.repr a).data = (Nat.repr b).data) : a = b := by
  have := congrArg decodeDigits h
  rwa [decode_repr, decode_repr] at this

theorem append_cons_inj {c : Char} :
    ∀ {l1 l2 r1 r2 : List Char}, c ∉ l1 → c ∉ l2 →
      l1 ++ c :: r1 = l2 ++ c :: r2 → l1 = l2 ∧ r1 = r2 := by
  intro l1
  induction l1 with
  | nil =>
    intro l2 r1 r2 _ h2 h
    cases l2 with
    | nil => simpa using h
    | cons x t =>
      simp only [List.nil_append, List.cons_append, List.cons.injEq] at h
      exact absurd (h.1 ▸ List.mem_cons_self x t) h2
  | cons y t ih =>
    intro l2 r1 r2 h1 h2 h
    cases l2 with
    | nil =>
      simp only [List.cons_append, List.nil_append, List.cons.injEq] at h
      exact absurd (h.1 ▸ List.mem_cons_self y t) (h.1 ▸ h1)
    | cons x t2 =>
      simp only [List.cons_append, List.cons.injEq] at h
      obtain ⟨rfl, h⟩ := h
      have h1' : c ∉ t := fun hc => h1 (List.mem_cons_of_mem _ hc)
      have h2' : c ∉ t2 := fun hc => h2 (List.mem_cons_of_mem _ hc)
      obtain ⟨ht, hr⟩ := ih h1' h2' h
      exact ⟨by rw [ht], hr⟩

theorem data_append (s t : String) : (s ++ t).data = s.data ++ t.data := rfl

theorem mkKey_data (a b : Nat) :
    (mkKey a b).data = (Nat.repr a).data ++ '-' :: (Nat.repr b).data := by
  simp [mkKey, data_append]

theorem mkKey_inj {a b a' b' : Nat} (h : mkKey a b = mkKey a' b') :
    a = a' ∧ b = b' := by
  have hd := congrArg String.data h
  rw [mkKey_data, mkKey_data] at hd
  obtain ⟨h1, h2⟩ := append_cons_inj (dash_not_mem_repr a) (dash_not_mem_repr a') hd
  exact ⟨repr_data_injective h1, repr_data_injective h2⟩

end Viewer

namespace ColorUtils

/-- C10: getPatternColor returns the palette entry at index
patternId mod 8 of the fixed eight-entry palette selected by solid;
consequently ids eight apart are always rendered in the same color. -/
theorem getPatternColor_mod_eight (patternId : Nat) (solid : Bool) :
    getPatternColor patternId solid =
      (if solid then COLORS_SOLID else COLORS_ALPHA).getD (patternId % 8) "" ∧
      getPatternColor (patternId + 8) solid = getPatternColor patternId solid := by
  have hlen : (if solid then COLORS_SOLID else COLORS_ALPHA).length = 8 := by
    cases solid <;> simp [COLORS_SOLID, COLORS_ALPHA]
  constructor
  · simp only [getPatternColor, hlen]
  · simp only [getPatternColor, hlen, Nat.add_mod_right]

end ColorUtils

namespace Viewer

theorem find?_append_eq {α : Type} (p : α → Bool) :
    ∀ (l₁ l₂ : List α), (l₁ ++ l₂).find? p =
      match l₁.find? p with
      | some x => some x
      | none => l₂.find? p := by
  intro l₁ l₂
  induction l₁ with
  | nil => simp
  | cons a t ih =>
    by_cases hp : p a
    · simp [List.find?_cons, hp]
    · simp [List.find?_cons, hp, ih]

theorem applyWrites_apply :
    ∀ (ws : List (String × PatternInfo)) (m : String → Option PatternInfo)
      (key : String),
      applyWrites m ws key =
        match ws.reverse.find? (fun kv => decide (kv.1 = key)) with
        | some kv => some kv.2
        | none => m key := by
  intro ws
  induction ws with
  | nil => intro m key; simp [applyWrites]
  | cons kv rest ih =>
    intro m key
    have hstep : applyWrites m (kv :: rest) =
        applyWrites (fun k => if k = kv.1 then some kv.2 else m k) rest := rfl
    rw [hstep, ih, List.reverse_cons, find?_append_eq]
    cases hfind : rest.reverse.find? (fun kv' => decide (kv'.1 = key)) with
    | some x => simp
    | none =>
      by_cases hk : key = kv.1
      · simp [List.find?_cons, hk]
      · have hk' : ¬(kv.1 = key) := fun h => hk h.symm
        simp [List.find?_cons, hk, hk']

theorem writesAux_key_iff {pc : Nat → Option String} {p : Pattern} {key : String} :
    ∀ (l : List Nat) (occ : Nat),
      (∃ kv ∈ patternWritesAux pc p l occ, kv.1 = key) ↔
        ∃ s ∈ l, ∃ i, i < p.length ∧ mkKey p.partIndex (s + i) = key := by
  intro l
  induction l with
  | nil => intro occ; simp [patternWritesAux]
  | cons s rest ih =>
    intro occ
    simp only [patternWritesAux, List.mem_append, List.mem_cons]
    constructor
    · rintro ⟨kv, hkv | hkv, hkey⟩
      · simp only [occWrites, List.mem_map, List.mem_range] at hkv
        obtain ⟨i, hi, rfl⟩ := hkv
        exact ⟨s, Or.inl rfl, i, hi, hkey⟩
      · obtain ⟨s', hs', i, hi, hk⟩ := (ih (occ + 1)).mp ⟨kv, hkv, hkey⟩
        exact ⟨s', Or.inr hs', i, hi, hk⟩
    · rintro ⟨s', hs' | hs', i, hi, hk⟩
      · subst hs'
        refine ⟨(mkKey p.partIndex (s' + i), ⟨p.id, occ, i, colorFor pc p, pitchAt p i⟩),
          Or.inl ?_, hk⟩
        simp only [occWrites, List.mem_map, List.mem_range]
        exact ⟨i, hi, rfl⟩
      · obtain ⟨kv, hkv, hkey⟩ := (ih (occ + 1)).mpr ⟨s', hs', i, hi, hk⟩
        exact ⟨kv, Or.inr hkv, hkey⟩

theorem coversB_iff_writes {pc : Nat → Option String} {p : Pattern} {key : String} :
    coversB p key = true ↔ ∃ kv ∈ patternWrites pc p, kv.1 = key := by
  rw [patternWrites, writesAux_key_iff]
  simp [coversB, List.any_eq_true, List.mem_range]

theorem patternId_of_mem_writesAux {pc : Nat → Option String} {p : Pattern} :
    ∀ {l : List Nat} {occ : Nat} {kv : String × PatternInfo},
      kv ∈ patternWritesAux pc p l occ → kv.2.patternId = p.id := by
  intro l
  induction l with
  | nil => intro occ kv h; simp [patternWritesAux] at h
  | cons s rest ih =>
    intro occ kv h
    rcases List.mem_append.mp h with h | h
    · simp only [occWrites, List.mem_map, List.mem_range] at h
      obtain ⟨i, _, rfl⟩ := h
      rfl
    · exact ih h

theorem insert_pattern_patternId (pc : Nat → Option String) (p : Pattern)
    (m : String → Option PatternInfo) (key : String) :
    (applyWrites m (patternWrites pc p) key).map PatternInfo.patternId =
      if coversB p key then some p.id
      else (m key).map PatternInfo.patternId := by
  rw [applyWrites_apply]
  cases hfind : (patternWrites pc p).reverse.find? (fun kv => decide (kv.1 = key)) with
  | some kv =>
    have hmem : kv ∈ patternWrites pc p :=
      List.mem_reverse.mp (List.mem_of_find?_eq_some hfind)
    have hkey : kv.1 = key := by
      have := List.find?_some hfind
      simpa using this
    have hid : kv.2.patternId = p.id := patternId_of_mem_writesAux hmem
    have hcov : coversB p key = true := coversB_iff_writes.mpr ⟨kv, hmem, hkey⟩
    simp [hcov, hid]
  | none =>
    have hcov : coversB p key = false := by
      rw [Bool.eq_false_iff]
      intro hc
      obtain ⟨kv, hkv, hkey⟩ := (@coversB_iff_writes pc p key).mp hc
      have := List.find?_eq_none.mp hfind kv (List.mem_reverse.mpr hkv)
      simp [hkey] at this
    simp [hcov]

theorem patternNoteIndices_foldl (pc : Nat → Option String) (key : String) :
    ∀ (ps : List Pattern) (m : String → Option PatternInfo),
      ((ps.foldl (fun m p => applyWrites m (patternWrites pc p)) m) key).map
          PatternInfo.patternId =
        match ps.reverse.find? (fun p => coversB p key) with
        | some p => some p.id
        | none => (m key).map PatternInfo.patternId := by
  intro ps
  induction ps with
  | nil => intro m; rfl
  | cons p rest ih =>
    intro m
    simp only [List.foldl_cons, List.reverse_cons]
    rw [ih, find?_append_eq]
    cases hfind : rest.reverse.find? (fun q => coversB q key) with
    | some q => simp
    | none =>
      rw [insert_pattern_patternId]
      by_cases hc : coversB p key
      · simp [List.find?_cons, hc]
      · simp [List.find?_cons, hc]

theorem coversB_characterize {p : Pattern} {q n : Nat} :
    coversB p (mkKey q n) = true ↔
      p.partIndex = q ∧ ∃ s ∈ p.positions, s ≤ n ∧ n < s + p.length := by
  simp only [coversB, List.any_eq_true, List.mem_range, decide_eq_true_eq]
  constructor
  · rintro ⟨s, hs, i, hi, hkey⟩
    obtain ⟨h1, h2⟩ := mkKey_inj hkey
    exact ⟨h1, s, hs, by omega, by omega⟩
  · rintro ⟨hq, s, hs, h1, h2⟩
    subst hq
    refine ⟨s, hs, n - s, by omega, ?_⟩
    rw [Nat.add_sub_cancel' h1]

/-- C9: the note-to-pattern highlight map of the sheet-music viewer
holds an entry for the key of part q and note index n exactly when n
lies inside some occurrence's range of some pattern of that part, and
the pattern recorded under any key is the last pattern of the input
list writing that key (Map.set overwrites, so the pattern appearing
later in the list wins every cross-pattern display overlap). -/
theorem patternNoteIndices_spec (pc : Nat → Option String) (ps : List Pattern) :
    (∀ q n : Nat, (patternNoteIndices pc ps (mkKey q n)).isSome = true ↔
        ∃ p ∈ ps, p.partIndex = q ∧ ∃ s ∈ p.positions, s ≤ n ∧ n < s + p.length) ∧
      ∀ key : String, (patternNoteIndices pc ps key).map PatternInfo.patternId =
        (ps.reverse.find? (fun p => coversB p key)).map Pattern.id := by
  have hmain : ∀ key : String,
      (patternNoteIndices pc ps key).map PatternInfo.patternId =
        (ps.reverse.find? (fun p => coversB p key)).map Pattern.id := by
    intro key
    calc (patternNoteIndices pc ps key).map PatternInfo.patternId
        = match ps.reverse.find? (fun p => coversB p key) with
          | some p => some p.id
          | none => ((fun _ => none : String → Option PatternInfo) key).map
              PatternInfo.patternId :=
          patternNoteIndices_foldl pc key ps _
      _ = (ps.reverse.find? (fun p => coversB p key)).map Pattern.id := by
          cases ps.reverse.find? (fun p => coversB p key) <;> rfl
  refine ⟨?_, hmain⟩
  intro q n
  have h1 : (patternNoteIndices pc ps (mkKey q n)).isSome =
      ((patternNoteIndices pc ps (mkKey q n)).map PatternInfo.patternId).isSome := by
    cases patternNoteIndices pc ps (mkKey q n) <;> rfl
  have h2 : ∀ o : Option Pattern, (o.map Pattern.id).isSome = o.isSome := by
    intro o; cases o <;> rfl
  rw [h1, hmain, h2, List.find?_isSome]
  constructor
  · rintro ⟨p, hp, hcov⟩
    rw [List.mem_reverse] at hp
    obtain ⟨hq, s, hs, hn1, hn2⟩ := coversB_characterize.mp hcov
    exact ⟨p, hp, hq, s, hs, hn1, hn2⟩
  · rintro ⟨p, hp, hq, s, hs, hn1, hn2⟩
    exact ⟨p, List.mem_reverse.mpr hp,
      coversB_characterize.mpr ⟨hq, s, hs, hn1, hn2⟩⟩

end Viewer
